import Mathlib

set_option autoImplicit false

namespace Greenstream

/-!
Shallow embedding of the greenstream video-publishing pipeline.

The embedding covers `src/cli/index.ts` (upload orchestration and manifest
rewriting), `src/cli/src/ffmpeg.ts` (input validation) and
`src/sui-video/sources/video.move` (the on-chain record).  JavaScript strings
are modelled as Lean `String`s and the JS string operations are defined on the
underlying character list.  The file system is modelled as an association list
from full path to file content (a list of lines), and the external `walrus`
CLI is modelled as an oracle from the invoked path list to the parsed JSON
result list.
-/

/-- JS `String.prototype.startsWith`, on the underlying character list. -/
def strStartsWith (s pre : String) : Bool := pre.data.isPrefixOf s.data

/-- JS `String.prototype.endsWith`, on the underlying character list. -/
def strEndsWith (s suf : String) : Bool := suf.data.isSuffixOf s.data

/-- JS `String.prototype.toLowerCase` (agrees with JS on the ASCII range,
which is all the extension check in `ffmpeg.ts` compares). -/
def strToLower (s : String) : String := String.mk (s.data.map Char.toLower)

/-- Node `path.join a b` for the on-disk relative segments the CLI joins
(already-normalized segments, so the join is plain concatenation). -/
def pjoin (a b : String) : String := a ++ "/" ++ b

/-- Node posix `path.basename`: the final path component, with trailing
slashes stripped. -/
def basename (p : String) : String :=
  String.mk (((p.data.reverse.dropWhile (fun c => c = '/')).takeWhile (fun c => c ≠ '/')).reverse)

/-- Node posix `path.extname`: the suffix of the final component from its last
dot, except that a component with no dot, a component whose only dot is its
first character, and the component `..` have no extension. -/
def extname (p : String) : String :=
  let b := (basename p).data
  let afterDot := b.reverse.takeWhile (fun c => c ≠ '.')
  if b = ['.', '.'] then ""
  else if afterDot.length = b.length then ""
  else if afterDot.length + 1 = b.length then ""
  else String.mk ('.' :: afterDot.reverse)

/-- Node posix `path.dirname`: everything before the last slash that precedes
the final component (trailing slashes ignored), with the root special cases. -/
def dirname (p : String) : String :=
  let r2 := (p.data.reverse.dropWhile (fun c => c = '/')).dropWhile (fun c => c ≠ '/')
  if r2.length ≤ 1 then (if strStartsWith p "/" then "/" else ".")
  else if strStartsWith p "/" && r2.length == 2 then "//"
  else String.mk (p.data.take (r2.length - 1))

/-- The error kinds of `validateInputFile` in `src/cli/src/ffmpeg.ts`:
`NotFound` ("Input file does not exist") and `UnsupportedFormat`
("Input file must be an MP4 file"). -/
inductive ValidateError where
  | notFound (filePath : String)
  | unsupportedFormat (ext : String)
deriving DecidableEq, Repr

/-- Function `validateInputFile` from `src/cli/src/ffmpeg.ts`: throws `NotFound` when
`fs.existsSync` is false, then throws `UnsupportedFormat` unless the
lower-cased `path.extname` is `.mp4`.  The file system is passed as the
existence predicate `fsE`; the function is pure (the check has no side
effects). -/
def validateInputFile (fsE : String → Bool) (filePath : String) : Except ValidateError Unit :=
  if fsE filePath = false then
    Except.error (ValidateError.notFound filePath)
  else
    let ext := strToLower (extname filePath)
    if ext ≠ ".mp4" then Except.error (ValidateError.unsupportedFormat ext)
    else Except.ok ()

/-- The Walrus aggregator blob endpoint constant from `src/cli/index.ts`. -/
def BLOB_ENDPOINT : String := "https://aggregator.walrus-testnet.walrus.space/v1/blobs"

/-- The retrieval URL written into rewritten playlists:
`BLOB_ENDPOINT/blobId`. -/
def blobUrl (blobId : String) : String := BLOB_ENDPOINT ++ "/" ++ blobId

/-- One character of a compiled JS regular expression as built by
`src/cli/index.ts`: a literal character, or `.` which matches any character
(the rewritten texts are handled line by line, so no line terminators occur).
The source interpolates file names into `new RegExp` without escaping, so a
`.` inside an interpolated name becomes a wildcard; the interpolated names
contain no other regex metacharacters in the scenarios modelled here (segment
names and rendition directory names are alphanumerics, `_`, `-` and `.`). -/
inductive PChar where
  | lit (c : Char)
  | anyChar
deriving DecidableEq, Repr

/-- Whether one pattern character matches one character. -/
def pcharMatch : PChar → Char → Bool
  | PChar.lit c, d => c = d
  | PChar.anyChar, _ => true

/-- Full-line match of a pattern (the source anchors with `^...$` and the `m`
flag, so a replaced reference must occupy the whole line). -/
def patMatch : List PChar → List Char → Bool
  | [], [] => true
  | p :: ps, c :: cs => pcharMatch p c && patMatch ps cs
  | _, _ => false

/-- Compile a string interpolated *unescaped* into a regex (as
`new RegExp("^" + fileName + "$")` does): `.` becomes a wildcard, everything
else is literal. -/
def toPat (s : String) : List PChar :=
  s.data.map (fun c => if c = '.' then PChar.anyChar else PChar.lit c)

/-- Compile a string whose dot is escaped in the source
(`playlist\\.m3u8`): every character is literal. -/
def litPat (s : String) : List PChar := s.data.map PChar.lit

/-- Replace every line that fully matches the pattern with `repl`
(`String.replace` with a `^...$` `gm` regex acts on each line separately). -/
def replaceLines (pat : List PChar) (repl : String) (lines : List String) : List String :=
  lines.map (fun l => if patMatch pat l.data then repl else l)

/-- Type `BlobMapping` from `src/cli/index.ts`: a JS object mapping file path to
blob id, modelled as an association list in property insertion order (the
order `Object.entries` yields for string keys). -/
abbrev BlobMapping := List (String × String)

/-- JS object property write `m[k] = v`: update in place when the key exists,
append otherwise (insertion order is preserved).  A JS object never holds a
duplicate key, so updating the first occurrence is exact. -/
def objInsert {α : Type} : List (String × α) → String → α → List (String × α)
  | [], k, v => [(k, v)]
  | e :: es, k, v => if e.1 = k then (k, v) :: es else e :: objInsert es k v

/-- JS object property read `m[k]`, `none` modelling `undefined`. -/
def objLookup {α : Type} (m : List (String × α)) (k : String) : Option α :=
  (m.find? (fun e => e.1 = k)).map (fun e => e.2)

/-- One parsed record of the `walrus store --json` output
(`WalrusCLIResult` in `src/cli/index.ts`): the nested success variants carry
the blob id, and `path` echoes the stored file's path. -/
structure BlobStoreResult where
  alreadyCertified : Option String
  newlyCreated : Option String
deriving DecidableEq, Repr

structure WalrusCLIResult where
  blobStoreResult : BlobStoreResult
  path : String
deriving DecidableEq, Repr

/-- JS `a || b` on two possibly-`undefined` strings: the empty string is
falsy, so it falls through to `b`. -/
def jsOrString : Option String → Option String → Option String
  | some s, b => if s = "" then b else some s
  | none, b => b

/-- The id resolution in `uploadToWalrus`:
`alreadyCertified?.blobId || newlyCreated?.blobObject.blobId`. -/
def resolveBlobId (r : WalrusCLIResult) : Option String :=
  jsOrString r.blobStoreResult.alreadyCertified r.blobStoreResult.newlyCreated

/-- One iteration of the result-processing loop of `uploadToWalrus`: resolve
an id with the truthy chain above and record `path -> blobId` only when the
resolved id is truthy (`if (blobId)`), i.e. present and non-empty. -/
def uploadStep (m : BlobMapping) (r : WalrusCLIResult) : BlobMapping :=
  match resolveBlobId r with
  | some bid => if bid = "" then m else objInsert m r.path bid
  | none => m

/-- The result-processing loop of `uploadToWalrus` in `src/cli/index.ts`,
over the parsed result list.  The CLI invocation itself is modelled by the
caller passing the parsed result list. -/
def uploadToWalrus (results : List WalrusCLIResult) : BlobMapping :=
  results.foldl uploadStep []

/-- The id actually recorded for one result entry: the resolved id when it is
truthy (present and non-empty), `none` otherwise.  This packages the
`if (blobId)` guard of the loop. -/
def keptId (r : WalrusCLIResult) : Option String :=
  match resolveBlobId r with
  | some s => if s = "" then none else some s
  | none => none

/-- One entry of a directory listing together with the `statSync.isDirectory`
answer for it. -/
structure DirEntry where
  name : String
  isDir : Bool
deriving DecidableEq, Repr

/-- Function `getStreamDirectories` from `src/cli/index.ts`: the names returned by
`readdirSync` on the assets directory that are directories and start with
`"stream_"`, in listing order. -/
def getStreamDirectories (listing : List DirEntry) : List String :=
  ((listing.filter (fun e => e.isDir)).map (fun e => e.name)).filter
    (fun d => strStartsWith d "stream_")

/-- Function `collectSegmentFiles` from `src/cli/index.ts`: for each stream directory
in order, the entries of its listing ending in `".ts"`, as relative paths
`streamDir/file`. -/
def collectSegmentFiles (streamDirs : List String) (dirListing : String → List String) :
    List String :=
  streamDirs.foldl
    (fun acc d =>
      acc ++ ((dirListing d).filter (fun f => strEndsWith f ".ts")).map (fun f => pjoin d f))
    []

/-- The qualification test of the sub-manifest rewrite loop in
`updatePlaylistContent`:
`filePath.startsWith(streamDir + "/") && filePath.endsWith(".ts")`. -/
def qualifiesSeg (streamDir : String) (e : String × String) : Bool :=
  strStartsWith e.1 (streamDir ++ "/") && strEndsWith e.1 ".ts"

/-- Function `updatePlaylistContent` from `src/cli/index.ts`, on the line decomposition
of the playlist text: for every blob-mapping entry under `streamDir` with the
`.ts` extension, in mapping order, replace every line fully matching the
unescaped regex `^basename$` with the blob URL. -/
def updatePlaylistContent (lines : List String) (streamDir : String) (m : BlobMapping) :
    List String :=
  m.foldl
    (fun acc e =>
      if qualifiesSeg streamDir e then
        replaceLines (toPat (basename e.1)) (blobUrl e.2) acc
      else acc)
    lines

/-- The qualification test of the master rewrite loop in
`processAndUploadMasterPlaylist`: `filePath.endsWith("playlist.m3u8")`. -/
def qualifiesPlaylist (e : String × String) : Bool :=
  strEndsWith e.1 "playlist.m3u8"

/-- The master-manifest rewrite loop of `processAndUploadMasterPlaylist`, on
the line decomposition of the master text: for every blob-mapping entry whose
path ends in `playlist.m3u8`, replace every line fully matching
`^dirname(path)/playlist\.m3u8$` (the directory is interpolated unescaped,
the final dot is escaped in the source) with the blob URL. -/
def updateMasterContent (lines : List String) (m : BlobMapping) : List String :=
  m.foldl
    (fun acc e =>
      if qualifiesPlaylist e then
        replaceLines (toPat (dirname e.1) ++ litPat "/playlist.m3u8") (blobUrl e.2) acc
      else acc)
    lines

/-- The on-disk state: an association list from full path to file content
(content is kept as its line decomposition, which is all the rewriting
touches). -/
abbrev FS := List (String × List String)

/-- Models `fs.existsSync`. -/
def fsExists (fs : FS) (p : String) : Bool := fs.any (fun e => e.1 = p)

/-- Models `fs.readFileSync`; `none` models the thrown error for a missing file. -/
def fsRead (fs : FS) (p : String) : Option (List String) :=
  (fs.find? (fun e => e.1 = p)).map (fun e => e.2)

/-- Models `fs.writeFileSync`: overwrite in place or create. -/
def fsWrite (fs : FS) (p : String) (c : List String) : FS := objInsert fs p c

/-- Models `fs.unlinkSync`. -/
def fsUnlink (fs : FS) (p : String) : FS := fs.filter (fun e => e.1 ≠ p)

/-- The pipeline's environment: the resolved assets directory, the
`readdirSync` answers for it and for each stream directory, and the external
`walrus store` invocation as an oracle from the path-argument list to the
parsed JSON result list. -/
structure Env where
  assetsPath : String
  rootListing : List DirEntry
  dirListing : String → List String
  store : List String → List WalrusCLIResult

/-- Relative path of a rendition's sub-manifest: `streamDir/playlist.m3u8`. -/
def playlistOrigRel (d : String) : String := pjoin d "playlist.m3u8"

/-- Relative path of a rendition's temporary rewritten sub-manifest:
`streamDir/temp_playlist.m3u8`. -/
def playlistTempRel (d : String) : String := pjoin d "temp_playlist.m3u8"

/-- Full path of the temporary rewritten master manifest
(`path.join(assetsPath, "temp_master.m3u8")`). -/
def tempMasterFull (env : Env) : String := pjoin env.assetsPath "temp_master.m3u8"

/-- Full path of the master manifest. -/
def masterFull (env : Env) : String := pjoin env.assetsPath "master.m3u8"

/-- The first loop of `processAndUploadPlaylists`: for each stream directory
whose `playlist.m3u8` exists, rewrite its content in memory, write it to the
temporary file, and record the relative temp path and the temp-to-original
association.  `none` models a thrown `readFileSync` error (unreachable after
the `existsSync` guard). -/
def processPlaylistsLoop (env : Env) (bm : BlobMapping) :
    List String → FS → List String → List (String × String) →
    Option (List String × List (String × String) × FS)
  | [], fs, temps, plMap => some (temps, plMap, fs)
  | d :: ds, fs, temps, plMap =>
    if fsExists fs (pjoin env.assetsPath (playlistOrigRel d)) then
      match fsRead fs (pjoin env.assetsPath (playlistOrigRel d)) with
      | none => none
      | some content =>
        let updated := updatePlaylistContent content d bm
        let fs1 := fsWrite fs (pjoin env.assetsPath (playlistTempRel d)) updated
        processPlaylistsLoop env bm ds fs1 (temps ++ [playlistTempRel d])
          (plMap ++ [(playlistTempRel d, playlistOrigRel d)])
    else processPlaylistsLoop env bm ds fs temps plMap

/-- The merge loop of `processAndUploadPlaylists`: for each uploaded temp
path in result order, look the original path up in `playlistMappings`; when
found, record `original -> blobId` in the blob mapping and delete the temp
file (guarded by `existsSync`). -/
def mergePlaylistUploads (env : Env) (plMap : List (String × String)) :
    List (String × String) → BlobMapping → FS → BlobMapping × FS
  | [], bm, fs => (bm, fs)
  | (tempPath, bid) :: rest, bm, fs =>
    match objLookup plMap tempPath with
    | some orig =>
      let bm1 := objInsert bm orig bid
      let fullTemp := pjoin env.assetsPath tempPath
      let fs1 := if fsExists fs fullTemp then fsUnlink fs fullTemp else fs
      mergePlaylistUploads env plMap rest bm1 fs1
    | none => mergePlaylistUploads env plMap rest bm fs

/-- Function `processAndUploadPlaylists` from `src/cli/index.ts`: rewrite and stage all
existing sub-manifests, upload the temp files in one batch when there are
any, then remap each uploaded temp path to the original path and delete the
temp file. -/
def processAndUploadPlaylists (env : Env) (streamDirs : List String) (bm : BlobMapping)
    (fs : FS) : Option (BlobMapping × FS) :=
  match processPlaylistsLoop env bm streamDirs fs [] [] with
  | none => none
  | some (temps, plMap, fs1) =>
    if temps.length > 0 then
      let uploaded := uploadToWalrus (env.store temps)
      some (mergePlaylistUploads env plMap uploaded bm fs1)
    else some (bm, fs1)

/-- Function `processAndUploadMasterPlaylist` from `src/cli/index.ts`: read
`master.m3u8` (throwing — `none` — when absent), rewrite it against the blob
mapping, write the temp master, upload it passing the *full* temp path,
delete the temp file, and return the mapping's value at the full temp path
(`undefined` — `none` — when the result was not keyed by it). -/
def processAndUploadMasterPlaylist (env : Env) (bm : BlobMapping) (fs : FS) :
    Option (Option String × FS) :=
  match fsRead fs (masterFull env) with
  | none => none
  | some content =>
    let updated := updateMasterContent content bm
    let fs1 := fsWrite fs (tempMasterFull env) updated
    let mm := uploadToWalrus (env.store [tempMasterFull env])
    let fs2 := fsUnlink fs1 (tempMasterFull env)
    some (objLookup mm (tempMasterFull env), fs2)

/-- The final state of one `uploadHLSAssetsToWalrus` run: the returned master
blob id, the returned blob mapping, and the resulting disk state. -/
structure RunResult where
  masterBlobId : Option String
  blobMappings : BlobMapping
  fs : FS
deriving DecidableEq, Repr

/-- The stream directories a run enumerates. -/
def pipelineStreamDirs (env : Env) : List String := getStreamDirectories env.rootListing

/-- The segment files a run enumerates. -/
def pipelineSegs (env : Env) : List String :=
  collectSegmentFiles (pipelineStreamDirs env) env.dirListing

/-- The stream directories whose `playlist.m3u8` exists on the given disk
state — exactly those the sub-manifest stage processes. -/
def selectedDirs (env : Env) (fs : FS) (ds : List String) : List String :=
  ds.filter (fun d => fsExists fs (pjoin env.assetsPath (playlistOrigRel d)))

/-- Function `uploadHLSAssetsToWalrus` from `src/cli/index.ts`: upload all segments in
one batch (merging the result into the fresh blob mapping), then the
sub-manifest stage, then the master stage.  The master blob id is returned
next to the mapping — the source never inserts it into `blobMappings`. -/
def uploadHLSAssetsToWalrus (env : Env) (fs : FS) : Option RunResult :=
  let streamDirs := pipelineStreamDirs env
  let segs := collectSegmentFiles streamDirs env.dirListing
  let bm := uploadToWalrus (env.store segs)
  match processAndUploadPlaylists env streamDirs bm fs with
  | none => none
  | some (bm1, fs1) =>
    match processAndUploadMasterPlaylist env bm1 fs1 with
    | none => none
    | some (mid, fs2) => some ⟨mid, bm1, fs2⟩

/-- Per-line form of `updatePlaylistContent`: the fold over mapping entries
applied to a single line (each pass rewrites lines independently). -/
def updateLineSeg (streamDir : String) (m : BlobMapping) (l : String) : String :=
  m.foldl
    (fun acc e =>
      if qualifiesSeg streamDir e then
        (if patMatch (toPat (basename e.1)) acc.data then blobUrl e.2 else acc)
      else acc)
    l

/-- The first qualifying mapping entry (in mapping order) whose compiled
pattern matches the line, mapped to its blob URL. -/
def segFirstMatch (streamDir : String) (m : BlobMapping) (l : String) : Option String :=
  (m.find? (fun e => qualifiesSeg streamDir e && patMatch (toPat (basename e.1)) l.data)).map
    (fun e => blobUrl e.2)

/-- Per-line form of `updateMasterContent`. -/
def updateLineMaster (m : BlobMapping) (l : String) : String :=
  m.foldl
    (fun acc e =>
      if qualifiesPlaylist e then
        (if patMatch (toPat (dirname e.1) ++ litPat "/playlist.m3u8") acc.data then
          blobUrl e.2
        else acc)
      else acc)
    l

/-- The spec's rendition-directory naming convention, for comparison with the
code's check: a fixed prefix `stream_` followed by an ordinal (a non-empty
digit string).  This definition follows the spec's words (§4.3: "a
rendition-directory naming convention (prefix + ordinal)"), not the source. -/
def specRenditionDirName (s : String) : Bool :=
  strStartsWith s "stream_" && !(s.data.drop 7).isEmpty && (s.data.drop 7).all Char.isDigit

/-- Whether a string contains no `.` — for such strings the unescaped regex
interpolation is literal. -/
def noDotStr (s : String) : Bool := s.data.all (fun c => c ≠ '.')

/-- The Move transaction context, reduced to the two pieces `save_video`
reads: `tx_context::epoch_timestamp_ms` and a fresh object id for
`object::new`. -/
structure TxContext where
  epochTimestampMs : Nat
  freshId : Nat
deriving DecidableEq, Repr

/-- Models `sui::url::Url`. -/
structure MoveUrl where
  inner : String
deriving DecidableEq, Repr

/-- Models `sui::url::new_unsafe`: wraps the string as a `Url` with no validation. -/
def urlNewUnsafe (s : String) : MoveUrl := ⟨s⟩

/-- The `Video` object of `src/sui-video/sources/video.move`. -/
structure Video where
  id : Nat
  title : String
  description : String
  master_manifest_url : MoveUrl
  created_at : Nat
deriving DecidableEq, Repr

/-- The observable effects of a Move entry function in this model.  `Video`
has no mutating function in the module, so a created object is final. -/
inductive MoveEffect where
  | sharedVideo (v : Video)
deriving DecidableEq, Repr

/-- Function `save_video` from `src/sui-video/sources/video.move`: build one `Video`
with a fresh id, the given title, description and (unvalidated) URL and the
current network epoch time in milliseconds, then `transfer::share_object`
it.  The effect list is the complete list of side effects of the call. -/
def save_video (ctx : TxContext) (title description master_manifest_url : String) :
    List MoveEffect :=
  [MoveEffect.sharedVideo
    { id := ctx.freshId
      title := title
      description := description
      master_manifest_url := urlNewUnsafe master_manifest_url
      created_at := ctx.epochTimestampMs }]

/-- A concrete successful store oracle: each requested path is echoed back as
a newly created blob with id `"id_" ++ path`. -/
def exIds (p : String) : String := "id_" ++ p

def exStore (ps : List String) : List WalrusCLIResult :=
  ps.map (fun p => ⟨⟨none, some (exIds p)⟩, p⟩)

/-- A concrete one-rendition environment used to evaluate full runs. -/
def exEnv : Env :=
  { assetsPath := "/out"
    rootListing := [⟨"stream_0", true⟩]
    dirListing := fun d => if d = "stream_0" then ["data000.ts"] else []
    store := exStore }

/-- A concrete initial disk state for `exEnv`: the rendition's sub-manifest
and the master manifest, as the transcoder leaves them. -/
def exFS : FS :=
  [("/out/stream_0/playlist.m3u8", ["#EXTM3U", "data000.ts"]),
   ("/out/master.m3u8", ["#EXTM3U", "stream_0/playlist.m3u8"])]

/-! General helper lemmas about the string and object-model primitives. -/

theorem strMk_data (s : String) : String.mk s.data = s := rfl

theorem strData_append (s t : String) : (s ++ t).data = s.data ++ t.data := rfl

theorem strData_inj {s t : String} (h : s.data = t.data) : s = t := by
  cases s; cases t; exact congrArg String.mk h

/-- C2: for every file-system state and path, the input validator rejects a
missing path with the `NotFound` kind, accepts an existing path whose
lower-cased extension is `.mp4`, and rejects an existing path with any other
lower-cased extension with the `UnsupportedFormat` kind.  The embedding is a
pure function of the existence predicate and the path, so the check has no
side effects by construction. -/
theorem c2_validator_cases (fsE : String → Bool) (p : String) :
    (fsE p = false → validateInputFile fsE p = Except.error (ValidateError.notFound p)) ∧
    (fsE p = true → strToLower (extname p) = ".mp4" →
      validateInputFile fsE p = Except.ok ()) ∧
    (fsE p = true → strToLower (extname p) ≠ ".mp4" →
      validateInputFile fsE p =
        Except.error (ValidateError.unsupportedFormat (strToLower (extname p)))) := by
  refine ⟨fun h => ?_, fun h hm => ?_, fun h hm => ?_⟩
  · simp [validateInputFile, h]
  · simp [validateInputFile, h, hm]
  · simp [validateInputFile, h, hm]

/-- Witness for C2 at concrete inputs: an existing upper-case `.MP4` file is
accepted, a missing `.mp4` file is `NotFound`, an existing `.avi` file is
`UnsupportedFormat`. -/
theorem c2_witness :
    validateInputFile (fun _ => true) "a/video.MP4" = Except.ok () ∧
    validateInputFile (fun _ => false) "a/video.mp4" =
      Except.error (ValidateError.notFound "a/video.mp4") ∧
    validateInputFile (fun _ => true) "a/video.avi" =
      Except.error (ValidateError.unsupportedFormat ".avi") :=
  ⟨(c2_validator_cases (fun _ => true) "a/video.MP4").2.1 rfl (by decide),
   (c2_validator_cases (fun _ => false) "a/video.mp4").1 rfl,
   (c2_validator_cases (fun _ => true) "a/video.avi").2.2 rfl (by decide)⟩

/-- C9: the validator checks existence before the extension: a non-existent
path always yields `NotFound`, never `UnsupportedFormat`, whatever its
extension. -/
theorem c9_notfound_precedence (fsE : String → Bool) (p : String) (h : fsE p = false) :
    validateInputFile fsE p = Except.error (ValidateError.notFound p) ∧
    ∀ ext, validateInputFile fsE p ≠ Except.error (ValidateError.unsupportedFormat ext) := by
  constructor
  · simp [validateInputFile, h]
  · intro ext
    simp [validateInputFile, h]

/-- Witness for C9: a non-existent path with a non-`.mp4` extension is
`NotFound` and in particular not `UnsupportedFormat` for its own
extension. -/
theorem c9_witness :
    validateInputFile (fun _ => false) "missing.avi" =
      Except.error (ValidateError.notFound "missing.avi") ∧
    validateInputFile (fun _ => false) "missing.avi" ≠
      Except.error (ValidateError.unsupportedFormat ".avi") :=
  ⟨(c9_notfound_precedence (fun _ => false) "missing.avi" rfl).1,
   (c9_notfound_precedence (fun _ => false) "missing.avi" rfl).2 ".avi"⟩

/-- C7: `save_video` produces exactly one effect, the sharing of one freshly
created `Video` carrying the given title, description, the reference string
wrapped unvalidated as a URL, and the network epoch time in milliseconds as
its creation timestamp.  The effect list is the function's complete behavior:
the module defines no function that mutates a `Video`, so the shared object
is never mutated afterwards, and the equation holds for every reference
string, so the reference is not validated as a manifest URL. -/
theorem c7_save_video_record (ctx : TxContext) (title description refStr : String) :
    save_video ctx title description refStr =
      [MoveEffect.sharedVideo
        { id := ctx.freshId
          title := title
          description := description
          master_manifest_url := urlNewUnsafe refStr
          created_at := ctx.epochTimestampMs }] ∧
    (save_video ctx title description refStr).length = 1 ∧
    urlNewUnsafe refStr = ⟨refStr⟩ :=
  ⟨rfl, rfl, rfl⟩

theorem foldl_append_join {α β : Type} (g : β → List α) :
    ∀ (l : List β) (acc : List α),
      l.foldl (fun a d => a ++ g d) acc = acc ++ (l.map g).flatten
  | [], acc => by simp
  | d :: ds, acc => by
    simp [foldl_append_join g ds (acc ++ g d), List.append_assoc]

theorem collectSegmentFiles_eq (sds : List String) (fl : String → List String) :
    collectSegmentFiles sds fl =
      (sds.map
        (fun d => ((fl d).filter (fun f => strEndsWith f ".ts")).map (fun f => pjoin d f))).flatten := by
  simpa [collectSegmentFiles] using
    foldl_append_join
      (fun d => ((fl d).filter (fun f => strEndsWith f ".ts")).map (fun f => pjoin d f)) sds []

theorem objInsert_fresh {α : Type} (m : List (String × α)) (k : String) (v : α)
    (h : m.any (fun e => e.1 = k) = false) : objInsert m k v = m ++ [(k, v)] := by
  induction m with
  | nil => rfl
  | cons e es ih =>
    simp only [List.any_cons, Bool.or_eq_false_iff, decide_eq_false_iff_not] at h
    simp [objInsert, h.1, ih h.2]

/-- C8 counterexample: the enumerator selects any directory whose name merely
starts with `stream_`; the name `stream_extra` is selected although it is not
the fixed prefix followed by an ordinal. -/
theorem c8_counterexample :
    getStreamDirectories [⟨"stream_extra", true⟩] = ["stream_extra"] ∧
    specRenditionDirName "stream_extra" = false := by decide

/-- C8 amended: the enumerator selects exactly the immediate entries of the
output directory that are directories and whose name starts with the fixed
prefix `stream_` (the remainder is not checked to be an ordinal), in
directory-listing order, and from each selected directory exactly the listed
entries whose name ends in `.ts`, as relative paths in listing order,
flattened directory by directory.  The first two conjuncts are order-carrying
equalities (the selected names are the sub-sequence of the listing passing
the check, and the segment sequence is the per-directory filtered listings
concatenated in that order); the last two spell out the "exactly the"
membership reading. -/
theorem c8_amended_enumeration (listing : List DirEntry) (dirListing : String → List String) :
    getStreamDirectories listing =
      (listing.filter (fun e => e.isDir && strStartsWith e.name "stream_")).map
        (fun e => e.name) ∧
    collectSegmentFiles (getStreamDirectories listing) dirListing =
      ((getStreamDirectories listing).map
        (fun d => ((dirListing d).filter (fun f => strEndsWith f ".ts")).map
          (fun f => pjoin d f))).flatten ∧
    (∀ d, d ∈ getStreamDirectories listing ↔
      ∃ e, e ∈ listing ∧ e.isDir = true ∧ e.name = d ∧ strStartsWith d "stream_" = true) ∧
    (∀ p, p ∈ collectSegmentFiles (getStreamDirectories listing) dirListing ↔
      ∃ d, d ∈ getStreamDirectories listing ∧
        ∃ f, f ∈ dirListing d ∧ strEndsWith f ".ts" = true ∧ p = pjoin d f) := by
  refine ⟨?_, collectSegmentFiles_eq _ _, ?_, ?_⟩
  · simp only [getStreamDirectories]
    rw [List.filter_map, List.filter_filter]
    apply congrArg (List.map (fun e : DirEntry => e.name))
    apply List.filter_congr
    intro e _
    simp [Function.comp, Bool.and_comm]
  · intro d
    simp only [getStreamDirectories, List.mem_filter, List.mem_map]
    constructor
    · rintro ⟨⟨e, ⟨he, hdir⟩, hname⟩, hpre⟩
      exact ⟨e, he, hdir, hname, hpre⟩
    · rintro ⟨e, he, hdir, hname, hpre⟩
      exact ⟨⟨e, ⟨he, hdir⟩, hname⟩, hpre⟩
  · intro p
    rw [collectSegmentFiles_eq]
    simp only [List.mem_flatten, List.mem_map, List.mem_filter]
    constructor
    · rintro ⟨l, ⟨d, hd, rfl⟩, hp⟩
      simp only [List.mem_map, List.mem_filter] at hp
      obtain ⟨f, ⟨hf, hts⟩, rfl⟩ := hp
      exact ⟨d, hd, f, hf, hts, rfl⟩
    · rintro ⟨d, hd, f, hf, hts, rfl⟩
      refine ⟨_, ⟨d, hd, rfl⟩, ?_⟩
      simp only [List.mem_map, List.mem_filter]
      exact ⟨f, ⟨hf, hts⟩, rfl⟩

/-- Witness for C8 on a concrete unsorted listing: selection keeps the
directory-listing order (`stream_2` before `stream_0`, the non-directory and
non-`stream_` entries skipped), and the segment files are collected per
directory in listing order (`b.ts` before `a.ts`, the `.m3u8` entry
skipped). -/
theorem c8_witness :
    getStreamDirectories
        [⟨"stream_2", true⟩, ⟨"notes", true⟩, ⟨"stream_0", true⟩, ⟨"stream_x", false⟩] =
      ["stream_2", "stream_0"] ∧
    collectSegmentFiles
        (getStreamDirectories
          [⟨"stream_2", true⟩, ⟨"notes", true⟩, ⟨"stream_0", true⟩, ⟨"stream_x", false⟩])
        (fun _ => ["b.ts", "x.m3u8", "a.ts"]) =
      ["stream_2/b.ts", "stream_2/a.ts", "stream_0/b.ts", "stream_0/a.ts"] := by
  have h := c8_amended_enumeration
    [⟨"stream_2", true⟩, ⟨"notes", true⟩, ⟨"stream_0", true⟩, ⟨"stream_x", false⟩]
    (fun _ => ["b.ts", "x.m3u8", "a.ts"])
  exact ⟨h.1.trans (by decide), h.2.1.trans (by decide)⟩

theorem uploadStep_of_none (acc : BlobMapping) (r : WalrusCLIResult)
    (hk : keptId r = none) : uploadStep acc r = acc := by
  unfold keptId at hk
  unfold uploadStep
  cases hr : resolveBlobId r with
  | none => rfl
  | some s =>
    rw [hr] at hk
    by_cases hs : s = ""
    · simp [hs]
    · simp [hs] at hk

theorem uploadStep_of_some (acc : BlobMapping) (r : WalrusCLIResult) (bid : String)
    (hk : keptId r = some bid) : uploadStep acc r = objInsert acc r.path bid := by
  unfold keptId at hk
  unfold uploadStep
  cases hr : resolveBlobId r with
  | none => rw [hr] at hk; cases hk
  | some s =>
    rw [hr] at hk
    by_cases hs : s = ""
    · simp [hs] at hk
    · simp [hs] at hk
      simp [hs, hk]
      intro hb
      exact absurd (hk.trans hb) hs

theorem uploadToWalrus_go (results : List WalrusCLIResult) :
    ∀ acc : BlobMapping,
      (∀ r ∈ results, acc.any (fun e => e.1 = r.path) = false) →
      (results.map (fun r => r.path)).Nodup →
      results.foldl uploadStep acc =
        acc ++ results.filterMap (fun r => (keptId r).map (fun bid => (r.path, bid))) := by
  induction results with
  | nil => intro acc _ _; simp
  | cons r rs ih =>
    intro acc hfresh hnd
    simp only [List.map_cons, List.nodup_cons, List.mem_map] at hnd
    simp only [List.foldl_cons, List.filterMap_cons]
    cases hk : keptId r with
    | none =>
      rw [uploadStep_of_none acc r hk]
      simpa using ih acc (fun x hx => hfresh x (List.mem_cons_of_mem _ hx)) hnd.2
    | some bid =>
      rw [uploadStep_of_some acc r bid hk,
        objInsert_fresh acc r.path bid (hfresh r (List.mem_cons_self _ _))]
      rw [ih (acc ++ [(r.path, bid)]) ?_ hnd.2]
      · simp
      · intro x hx
        have hne : ¬ r.path = x.path := fun heq => hnd.1 ⟨x, hx, heq.symm⟩
        simp [List.any_append, hfresh x (List.mem_cons_of_mem _ hx), hne]

/-- C5 amended: the uploader resolves each entry's identifier with the JS
truthy chain — the already-certified id when that variant is present with a
non-empty id, otherwise the newly-created id — and the returned mapping
contains, in result order, exactly the entries whose resolved identifier is
present and non-empty; all other entries (in particular those with neither
success variant) are dropped without an error, the function being total. -/
theorem c5_amended_result_mapping (results : List WalrusCLIResult)
    (hnd : (results.map (fun r => r.path)).Nodup) :
    uploadToWalrus results =
      results.filterMap (fun r => (keptId r).map (fun bid => (r.path, bid))) := by
  simpa [uploadToWalrus] using uploadToWalrus_go results [] (by simp) hnd

/-- Witness for C5 at concrete inputs: a certified id is kept, a
newly-created id is kept, an entry with neither variant is dropped without
error. -/
theorem c5_witness :
    uploadToWalrus [⟨⟨some "C", none⟩, "a"⟩, ⟨⟨none, some "N"⟩, "b"⟩, ⟨⟨none, none⟩, "c"⟩] =
      [("a", "C"), ("b", "N")] := by
  have h := c5_amended_result_mapping
    [⟨⟨some "C", none⟩, "a"⟩, ⟨⟨none, some "N"⟩, "b"⟩, ⟨⟨none, none⟩, "c"⟩] (by decide)
  rw [h]; rfl

/-- C5 counterexample: with an empty already-certified id, the truthy chain
falls through — the already-certified variant is present yet the
newly-created id is recorded; and an entry carrying only an empty
already-certified id is dropped although a success variant was present. -/
theorem c5_counterexample :
    uploadToWalrus [⟨⟨some "", some "NEW"⟩, "f"⟩] = [("f", "NEW")] ∧
    uploadToWalrus [⟨⟨some "", none⟩, "g"⟩] = [] := by decide

/-- C10: the sub-manifest rewrite depends only on the mapping entries under
the given rendition directory with the `.ts` extension — filtering the
mapping to those entries does not change the result — and when no entry
qualifies the rewrite is the identity on the playlist text. -/
theorem c10_rewrite_locality (lines : List String) (sd : String) (m : BlobMapping) :
    updatePlaylistContent lines sd m =
      updatePlaylistContent lines sd (m.filter (fun e => qualifiesSeg sd e)) ∧
    ((∀ e ∈ m, qualifiesSeg sd e = false) → updatePlaylistContent lines sd m = lines) := by
  constructor
  · induction m generalizing lines with
    | nil => rfl
    | cons e es ih =>
      by_cases hq : qualifiesSeg sd e
      · simp only [updatePlaylistContent, List.foldl_cons, List.filter_cons, hq, if_pos]
        exact ih _
      · simp only [updatePlaylistContent, List.foldl_cons, List.filter_cons] at *
        simp only [hq]
        simpa [hq] using ih lines
  · intro h
    induction m with
    | nil => rfl
    | cons e es ih =>
      have he := h e (List.mem_cons_self _ _)
      simp only [updatePlaylistContent, List.foldl_cons, he] at *
      simpa [he] using ih (fun x hx => h x (List.mem_cons_of_mem _ hx))

/-- Witness for C10: a mapping holding only another rendition's segment and a
non-segment file leaves the playlist unchanged. -/
theorem c10_witness :
    updatePlaylistContent ["#EXTM3U", "data0.ts"] "stream_0"
        [("stream_1/data0.ts", "B"), ("notes.txt", "C")] = ["#EXTM3U", "data0.ts"] :=
  (c10_rewrite_locality ["#EXTM3U", "data0.ts"] "stream_0"
      [("stream_1/data0.ts", "B"), ("notes.txt", "C")]).2 (by decide)

theorem updatePlaylistContent_eq_map (sd : String) (m : BlobMapping) :
    ∀ lines : List String, updatePlaylistContent lines sd m = lines.map (updateLineSeg sd m) := by
  induction m with
  | nil =>
    intro lines
    have hid : updateLineSeg sd [] = fun l => l := rfl
    simp [updatePlaylistContent, hid]
  | cons e es ih =>
    intro lines
    have hstep : updatePlaylistContent lines sd (e :: es) =
        updatePlaylistContent
          (if qualifiesSeg sd e then replaceLines (toPat (basename e.1)) (blobUrl e.2) lines
           else lines) sd es := rfl
    rw [hstep, ih]
    by_cases hq : qualifiesSeg sd e
    · simp only [hq, if_true, replaceLines, List.map_map]
      congr 1
      funext l
      simp [updateLineSeg, Function.comp, hq]
    · simp only [hq]
      simp only [Bool.false_eq_true, if_false]
      congr 1
      funext l
      simp [updateLineSeg, hq]

theorem updateLineSeg_fixed (sd : String) (m : BlobMapping) (u : String)
    (h : ∀ e ∈ m, qualifiesSeg sd e = true → patMatch (toPat (basename e.1)) u.data = false) :
    updateLineSeg sd m u = u := by
  induction m with
  | nil => rfl
  | cons e es ih =>
    have hstep : updateLineSeg sd (e :: es) u =
        updateLineSeg sd es
          (if qualifiesSeg sd e then
            (if patMatch (toPat (basename e.1)) u.data then blobUrl e.2 else u)
          else u) := rfl
    rw [hstep]
    by_cases hq : qualifiesSeg sd e
    · have hm := h e (List.mem_cons_self _ _) hq
      simp only [hq, hm, if_true, Bool.false_eq_true, if_false]
      exact ih (fun x hx hqx => h x (List.mem_cons_of_mem _ hx) hqx)
    · simp only [hq, Bool.false_eq_true, if_false]
      exact ih (fun x hx hqx => h x (List.mem_cons_of_mem _ hx) hqx)

theorem updateLineSeg_eq_firstMatch (sd : String) (m : BlobMapping) (l : String)
    (hurl : ∀ e ∈ m, qualifiesSeg sd e = true → ∀ e2 ∈ m, qualifiesSeg sd e2 = true →
      patMatch (toPat (basename e.1)) (blobUrl e2.2).data = false) :
    updateLineSeg sd m l = (segFirstMatch sd m l).getD l := by
  induction m with
  | nil => rfl
  | cons e es ih =>
    have hstep : updateLineSeg sd (e :: es) l =
        updateLineSeg sd es
          (if qualifiesSeg sd e then
            (if patMatch (toPat (basename e.1)) l.data then blobUrl e.2 else l)
          else l) := rfl
    have hurl' : ∀ x ∈ es, qualifiesSeg sd x = true → ∀ e2 ∈ es, qualifiesSeg sd e2 = true →
        patMatch (toPat (basename x.1)) (blobUrl e2.2).data = false :=
      fun x hx hqx e2 he2 hq2 =>
        hurl x (List.mem_cons_of_mem _ hx) hqx e2 (List.mem_cons_of_mem _ he2) hq2
    rw [hstep]
    by_cases hq : qualifiesSeg sd e
    · by_cases hpm : patMatch (toPat (basename e.1)) l.data
      · simp only [hq, hpm, if_true]
        rw [updateLineSeg_fixed sd es (blobUrl e.2)
          (fun x hx hqx =>
            hurl x (List.mem_cons_of_mem _ hx) hqx e (List.mem_cons_self _ _) hq)]
        have hfind : segFirstMatch sd (e :: es) l = some (blobUrl e.2) := by
          simp [segFirstMatch, List.find?_cons_of_pos, hq, hpm]
        rw [hfind]
        rfl
      · simp only [hq, hpm, if_true, Bool.false_eq_true, if_false]
        have hfind : segFirstMatch sd (e :: es) l = segFirstMatch sd es l := by
          simp only [segFirstMatch]
          rw [List.find?_cons_of_neg]
          simp [hpm]
        rw [hfind]
        exact ih hurl'
    · simp only [hq, Bool.false_eq_true, if_false]
      have hfind : segFirstMatch sd (e :: es) l = segFirstMatch sd es l := by
        simp only [segFirstMatch]
        rw [List.find?_cons_of_neg]
        simp [hq]
      rw [hfind]
      exact ih hurl'

/-- C3 corrected: the sub-manifest rewrite builds its regex from the raw
segment filename, so a line need not be exactly equal to a mapped filename to
be rewritten: each line becomes the blob URL of the *first* mapped segment
under the rendition directory whose filename, read as a line-anchored regex
with `.` a single-character wildcard, matches the line, and a line matching
no such pattern is unchanged.  The hypothesis rules out a filename pattern
matching a produced blob URL (true of any realistic id).  A filename's
pattern always matches the filename itself, so a line exactly equal to a
mapped segment's bare filename is still replaced. -/
theorem c3_amended_line_rewrite (lines : List String) (sd : String) (m : BlobMapping)
    (hurl : ∀ e ∈ m, qualifiesSeg sd e = true → ∀ e2 ∈ m, qualifiesSeg sd e2 = true →
      patMatch (toPat (basename e.1)) (blobUrl e2.2).data = false) :
    updatePlaylistContent lines sd m =
      lines.map (fun l => (segFirstMatch sd m l).getD l) ∧
    ∀ s : String, patMatch (toPat s) s.data = true := by
  constructor
  · rw [updatePlaylistContent_eq_map]
    congr 1
    funext l
    exact updateLineSeg_eq_firstMatch sd m l hurl
  · intro s
    show patMatch (toPat s) s.data = true
    rw [toPat]
    induction s.data with
    | nil => rfl
    | cons c cs ih =>
      by_cases hc : c = '.'
      · simpa [patMatch, pcharMatch, hc] using ih
      · simpa [patMatch, pcharMatch, hc] using ih

/-- C3 counterexample: with the mapping entry `stream_0/data000.ts`, the line
`data000xts` — not equal to the segment's bare filename — is nevertheless
rewritten to the blob URL, because the unescaped `.` in the regex matches the
`x`. -/
theorem c3_counterexample :
    updatePlaylistContent ["data000xts"] "stream_0" [("stream_0/data000.ts", "b1")] =
      [blobUrl "b1"] ∧
    blobUrl "b1" ≠ "data000xts" ∧
    "data000xts" ≠ basename "stream_0/data000.ts" := by
  refine ⟨rfl, by decide, by decide⟩

/-- Witness for C3 at a concrete playlist: the mapped segment line becomes
its blob URL and the header lines stay unchanged. -/
theorem c3_witness :
    updatePlaylistContent ["#EXTM3U", "data000.ts", "#EXT-X-ENDLIST"] "stream_0"
        [("stream_0/data000.ts", "b1")] =
      ["#EXTM3U", blobUrl "b1", "#EXT-X-ENDLIST"] := by
  have h := c3_amended_line_rewrite ["#EXTM3U", "data000.ts", "#EXT-X-ENDLIST"] "stream_0"
    [("stream_0/data000.ts", "b1")] (by decide)
  rw [h.1]
  rfl

theorem patMatch_litPat_iff (s : String) (t : List Char) :
    patMatch (litPat s) t = true ↔ s.data = t := by
  rw [litPat]
  induction s.data generalizing t with
  | nil => cases t <;> simp [patMatch]
  | cons c cs ih =>
    cases t with
    | nil => simp [patMatch]
    | cons d ds => simp [patMatch, pcharMatch, ih]

theorem patMatch_litPat_ne (s : String) (t : List Char) (h : s.data ≠ t) :
    patMatch (litPat s) t = false :=
  Bool.eq_false_iff.2 (fun hm => h ((patMatch_litPat_iff s t).1 hm))

theorem toPat_eq_litPat (s : String) (h : noDotStr s = true) : toPat s = litPat s := by
  rw [toPat, litPat]
  rw [noDotStr, List.all_eq_true] at h
  refine List.map_congr_left (fun c hc => ?_)
  have hcne : ¬ c = '.' := by simpa using h c hc
  simp [hcne]

theorem litPat_append (a b : String) : litPat (a ++ b) = litPat a ++ litPat b := by
  simp [litPat, strData_append]

theorem strStartsWith_stream_head {d : String} (hd : strStartsWith d "stream_" = true) :
    ∃ t, d.data = 's' :: t := by
  obtain ⟨t, ht⟩ := List.isPrefixOf_iff_prefix.1 hd
  exact ⟨"tream_".data ++ t, by rw [← ht]; rfl⟩

theorem strData_len_of_stream {d : String} (hd : strStartsWith d "stream_" = true) :
    7 ≤ d.data.length := by
  obtain ⟨t, ht⟩ := List.isPrefixOf_iff_prefix.1 hd
  rw [← ht]
  simp

theorem dirname_pjoin_playlist (d : String) (hd : strStartsWith d "stream_" = true) :
    dirname (d ++ "/playlist.m3u8") = d := by
  have hr2 : (((d ++ "/playlist.m3u8").data.reverse.dropWhile (fun c => c = '/')).dropWhile
      (fun c => c ≠ '/')) = '/' :: d.data.reverse := by
    have hdata : (d ++ "/playlist.m3u8").data.reverse =
        "/playlist.m3u8".data.reverse ++ d.data.reverse := by
      rw [strData_append, List.reverse_append]
    rw [hdata]
    rfl
  have hlen : ('/' :: d.data.reverse).length = d.data.length + 1 := by simp
  have hge : 7 ≤ d.data.length := strData_len_of_stream hd
  have hslash : strStartsWith (d ++ "/playlist.m3u8") "/" = false := by
    obtain ⟨t, ht⟩ := strStartsWith_stream_head hd
    rw [strStartsWith, strData_append, ht]
    rfl
  rw [dirname]
  simp only [hr2, hlen, hslash]
  have hnle : ¬ (d.data.length + 1 ≤ 1) := by omega
  rw [if_neg hnle]
  simp only [Bool.false_and, Bool.false_eq_true, if_false]
  rw [strData_append, Nat.add_sub_cancel, List.take_left]

theorem endsWith_pjoin_playlist (sd : String) :
    strEndsWith (sd ++ "/playlist.m3u8") "playlist.m3u8" = true := by
  rw [strEndsWith, List.isSuffixOf_iff_suffix]
  refine ⟨sd.data ++ ['/'], ?_⟩
  rw [strData_append, List.append_assoc]
  rfl

theorem blobUrl_head (b : String) : ∃ r, (blobUrl b).data = 'h' :: r := ⟨_, rfl⟩

theorem pjoin_playlist_head {d : String} (hd : strStartsWith d "stream_" = true) :
    ∃ r, (d ++ "/playlist.m3u8").data = 's' :: r := by
  obtain ⟨t, ht⟩ := strStartsWith_stream_head hd
  exact ⟨t ++ "/playlist.m3u8".data, by rw [strData_append, ht]; rfl⟩

theorem masterPattern_not_match_url {d : String} (b : String)
    (hd : strStartsWith d "stream_" = true) (hnd : noDotStr d = true) :
    patMatch (toPat (dirname (d ++ "/playlist.m3u8")) ++ litPat "/playlist.m3u8")
      (blobUrl b).data = false := by
  rw [dirname_pjoin_playlist d hd, toPat_eq_litPat d hnd, ← litPat_append]
  apply patMatch_litPat_ne
  obtain ⟨r, hr⟩ := pjoin_playlist_head hd
  obtain ⟨r2, hr2⟩ := blobUrl_head b
  rw [hr, hr2]
  intro h
  exact absurd (List.head_eq_of_cons_eq h) (by decide)

theorem updateLineMaster_fixed (m : BlobMapping) (u : String)
    (h : ∀ e ∈ m, qualifiesPlaylist e = true →
      patMatch (toPat (dirname e.1) ++ litPat "/playlist.m3u8") u.data = false) :
    updateLineMaster m u = u := by
  induction m with
  | nil => rfl
  | cons e es ih =>
    have hstep : updateLineMaster (e :: es) u =
        updateLineMaster es
          (if qualifiesPlaylist e then
            (if patMatch (toPat (dirname e.1) ++ litPat "/playlist.m3u8") u.data then
              blobUrl e.2
            else u)
          else u) := rfl
    rw [hstep]
    by_cases hq : qualifiesPlaylist e
    · have hm := h e (List.mem_cons_self _ _) hq
      simp only [hq, hm, if_true, Bool.false_eq_true, if_false]
      exact ih (fun x hx hqx => h x (List.mem_cons_of_mem _ hx) hqx)
    · simp only [hq, Bool.false_eq_true, if_false]
      exact ih (fun x hx hqx => h x (List.mem_cons_of_mem _ hx) hqx)

theorem updateLineMaster_hits (m : BlobMapping) (sd bid : String)
    (hform : ∀ e ∈ m, qualifiesPlaylist e = true →
      ∃ d, e.1 = d ++ "/playlist.m3u8" ∧ strStartsWith d "stream_" = true ∧ noDotStr d = true)
    (hnd : (m.map (fun e => e.1)).Nodup)
    (hmem : (sd ++ "/playlist.m3u8", bid) ∈ m) :
    updateLineMaster m (sd ++ "/playlist.m3u8") = blobUrl bid := by
  induction m with
  | nil => cases hmem
  | cons e es ih =>
    simp only [List.map_cons, List.nodup_cons, List.mem_map] at hnd
    have hstep : updateLineMaster (e :: es) (sd ++ "/playlist.m3u8") =
        updateLineMaster es
          (if qualifiesPlaylist e then
            (if patMatch (toPat (dirname e.1) ++ litPat "/playlist.m3u8")
                (sd ++ "/playlist.m3u8").data then
              blobUrl e.2
            else (sd ++ "/playlist.m3u8"))
          else (sd ++ "/playlist.m3u8")) := rfl
    rw [hstep]
    rcases List.mem_cons.1 hmem with heq | hmem'
    · have hkey0 : e.1 = sd ++ "/playlist.m3u8" := by rw [← heq]
      have hbid : e.2 = bid := by rw [← heq]
      have hq : qualifiesPlaylist e = true := by
        rw [qualifiesPlaylist, hkey0]
        exact endsWith_pjoin_playlist sd
      obtain ⟨d, hkey, hds, hdnd⟩ := hform e (List.mem_cons_self _ _) hq
      have hdsd : d = sd := by
        apply strData_inj
        have hkk : (d ++ "/playlist.m3u8").data = (sd ++ "/playlist.m3u8").data := by
          rw [← hkey, hkey0]
        rw [strData_append, strData_append] at hkk
        exact List.append_cancel_right hkk
      rw [hdsd] at hds hdnd
      have hpm : patMatch (toPat (dirname e.1) ++ litPat "/playlist.m3u8")
          (sd ++ "/playlist.m3u8").data = true := by
        rw [hkey0, dirname_pjoin_playlist sd hds, toPat_eq_litPat sd hdnd, ← litPat_append]
        exact (patMatch_litPat_iff _ _).2 rfl
      simp only [hq, hpm, if_true]
      rw [hbid]
      apply updateLineMaster_fixed
      intro x hx hqx
      obtain ⟨dx, hxkey, hxs, hxnd⟩ := hform x (List.mem_cons_of_mem _ hx) hqx
      rw [hxkey]
      exact masterPattern_not_match_url bid hxs hxnd
    · by_cases hq : qualifiesPlaylist e
      · obtain ⟨d, hkey, hds, hdnd⟩ := hform e (List.mem_cons_self _ _) hq
        have hne : e.1 ≠ sd ++ "/playlist.m3u8" := by
          intro habs
          exact hnd.1 ⟨_, hmem', by rw [habs]⟩
        have hpm : patMatch (toPat (dirname e.1) ++ litPat "/playlist.m3u8")
            (sd ++ "/playlist.m3u8").data = false := by
          rw [hkey, dirname_pjoin_playlist d hds, toPat_eq_litPat d hdnd, ← litPat_append]
          apply patMatch_litPat_ne
          intro habs
          exact hne (by rw [hkey]; exact strData_inj habs)
        simp only [hq, hpm, if_true, Bool.false_eq_true, if_false]
        exact ih (fun x hx hqx => hform x (List.mem_cons_of_mem _ hx) hqx) hnd.2 hmem'
      · simp only [hq, Bool.false_eq_true, if_false]
        exact ih (fun x hx hqx => hform x (List.mem_cons_of_mem _ hx) hqx) hnd.2 hmem'

theorem updateMasterContent_eq_map (m : BlobMapping) :
    ∀ lines : List String, updateMasterContent lines m = lines.map (updateLineMaster m) := by
  induction m with
  | nil =>
    intro lines
    have hid : updateLineMaster [] = fun l => l := rfl
    simp [updateMasterContent, hid]
  | cons e es ih =>
    intro lines
    have hstep : updateMasterContent lines (e :: es) =
        updateMasterContent
          (if qualifiesPlaylist e then
            replaceLines (toPat (dirname e.1) ++ litPat "/playlist.m3u8") (blobUrl e.2) lines
          else lines) es := rfl
    rw [hstep, ih]
    by_cases hq : qualifiesPlaylist e
    · simp only [hq, if_true, replaceLines, List.map_map]
      congr 1
      funext l
      simp [updateLineMaster, Function.comp, hq]
    · simp only [hq, Bool.false_eq_true, if_false]
      congr 1
      funext l
      simp [updateLineMaster, hq]

/-- C4: after the master pass, a line that was exactly
`renditionDir/playlist.m3u8`, where that rendition's sub-manifest has an
entry in the blob mapping, equals that sub-manifest's blob retrieval URL.
The hypotheses express the full-run setting of the claim: every mapped
sub-manifest path has the documented `stream_<n>/playlist.m3u8` layout (the
directory name dot-free, so the interpolated regex is literal), and the
mapping's keys are distinct. -/
theorem c4_master_rewrite (lines : List String) (m : BlobMapping) (sd bid : String) (i : Nat)
    (hform : ∀ e ∈ m, qualifiesPlaylist e = true →
      ∃ d, e.1 = d ++ "/playlist.m3u8" ∧ strStartsWith d "stream_" = true ∧ noDotStr d = true)
    (hnd : (m.map (fun e => e.1)).Nodup)
    (hmem : (sd ++ "/playlist.m3u8", bid) ∈ m)
    (hline : lines[i]? = some (sd ++ "/playlist.m3u8")) :
    (updateMasterContent lines m)[i]? = some (blobUrl bid) := by
  rw [updateMasterContent_eq_map, List.getElem?_map, hline]
  simp only [Option.map_some']
  rw [updateLineMaster_hits m sd bid hform hnd hmem]

/-- Witness for C4: a concrete master manifest whose rendition line is
rewritten to the sub-manifest's blob URL. -/
theorem c4_witness :
    (updateMasterContent ["#EXTM3U", "stream_0/playlist.m3u8"]
        [("stream_0/data000.ts", "segid"), ("stream_0/playlist.m3u8", "plid")])[1]? =
      some (blobUrl "plid") :=
  c4_master_rewrite ["#EXTM3U", "stream_0/playlist.m3u8"]
    [("stream_0/data000.ts", "segid"), ("stream_0/playlist.m3u8", "plid")] "stream_0" "plid" 1
    (by
      intro e he hq
      rcases List.mem_cons.1 he with h | h
      · rw [h] at hq
        exact absurd hq (by decide)
      · rcases List.mem_cons.1 h with h2 | h2
        · rw [h2]
          exact ⟨"stream_0", by decide, by decide, by decide⟩
        · cases h2)
    (by decide) (by decide) (by decide)

theorem objLookup_cons_hit {α : Type} (e : String × α) (es : List (String × α)) (p : String)
    (h : e.1 = p) : objLookup (e :: es) p = some e.2 := by
  simp only [objLookup]
  rw [List.find?_cons_of_pos _ (by simpa using h)]
  rfl

theorem objLookup_cons_miss {α : Type} (e : String × α) (es : List (String × α)) (p : String)
    (h : ¬ e.1 = p) : objLookup (e :: es) p = objLookup es p := by
  simp only [objLookup]
  rw [List.find?_cons_of_neg _ (by simpa using h)]

theorem objLookup_insert {α : Type} (m : List (String × α)) (k : String) (v : α) (p : String) :
    objLookup (objInsert m k v) p = if p = k then some v else objLookup m p := by
  induction m with
  | nil =>
    simp only [objInsert]
    by_cases hp : p = k
    · rw [objLookup_cons_hit _ _ _ hp.symm, if_pos hp]
    · rw [objLookup_cons_miss _ _ _ (fun h : k = p => hp h.symm), if_neg hp]
  | cons e es ih =>
    simp only [objInsert]
    by_cases hek : e.1 = k
    · rw [if_pos hek]
      by_cases hp : p = k
      · rw [objLookup_cons_hit _ _ _ hp.symm, if_pos hp]
      · rw [objLookup_cons_miss _ _ _ (fun h : k = p => hp h.symm), if_neg hp,
          objLookup_cons_miss _ _ _ (fun h : e.1 = p => hp (h.symm.trans hek))]
    · rw [if_neg hek]
      by_cases hep : e.1 = p
      · have hp : ¬ p = k := fun h => hek (hep.trans h)
        rw [objLookup_cons_hit _ _ _ hep, if_neg hp, objLookup_cons_hit _ _ _ hep]
      · rw [objLookup_cons_miss _ _ _ hep, ih]
        by_cases hp : p = k
        · rw [if_pos hp, if_pos hp]
        · rw [if_neg hp, if_neg hp, objLookup_cons_miss _ _ _ hep]

theorem objLookup_filterKey_self {α : Type} (m : List (String × α)) (p : String) :
    objLookup (m.filter (fun e => e.1 ≠ p)) p = none := by
  induction m with
  | nil => rfl
  | cons e es ih =>
    rw [List.filter_cons]
    by_cases hep : e.1 = p
    · rw [if_neg (by simp [hep])]
      exact ih
    · rw [if_pos (by simpa using hep), objLookup_cons_miss _ _ _ hep]
      exact ih

theorem objLookup_filterKey_ne {α : Type} (m : List (String × α)) (p q : String) (h : q ≠ p) :
    objLookup (m.filter (fun e => e.1 ≠ p)) q = objLookup m q := by
  induction m with
  | nil => rfl
  | cons e es ih =>
    rw [List.filter_cons]
    by_cases hep : e.1 = p
    · have heq : ¬ e.1 = q := fun habs => h (habs.symm.trans hep)
      rw [if_neg (by simp [hep]), objLookup_cons_miss _ _ _ heq]
      exact ih
    · rw [if_pos (by simpa using hep)]
      by_cases heq : e.1 = q
      · rw [objLookup_cons_hit _ _ _ heq, objLookup_cons_hit _ _ _ heq]
      · rw [objLookup_cons_miss _ _ _ heq, objLookup_cons_miss _ _ _ heq]
        exact ih

theorem objLookup_isSome {α : Type} (m : List (String × α)) (p : String) :
    (objLookup m p).isSome = m.any (fun e => e.1 = p) := by
  induction m with
  | nil => rfl
  | cons e es ih =>
    by_cases hep : e.1 = p
    · rw [objLookup_cons_hit _ _ _ hep]
      simp [List.any_cons, hep]
    · rw [objLookup_cons_miss _ _ _ hep]
      simp [List.any_cons, hep, ih]

theorem fsRead_write (fs : FS) (k p : String) (c : List String) :
    fsRead (fsWrite fs k c) p = if p = k then some c else fsRead fs p :=
  objLookup_insert fs k c p

theorem fsRead_unlink (fs : FS) (k p : String) :
    fsRead (fsUnlink fs k) p = if p = k then none else fsRead fs p := by
  by_cases hp : p = k
  · rw [if_pos hp, hp]
    exact objLookup_filterKey_self fs k
  · rw [if_neg hp]
    exact objLookup_filterKey_ne fs k p hp

theorem fsExists_eq_isSome (fs : FS) (p : String) : fsExists fs p = (fsRead fs p).isSome :=
  (objLookup_isSome fs p).symm

theorem fsExists_write (fs : FS) (k p : String) (c : List String) :
    fsExists (fsWrite fs k c) p = if p = k then true else fsExists fs p := by
  rw [fsExists_eq_isSome, fsRead_write]
  by_cases hp : p = k
  · simp [hp]
  · simp [hp, fsExists_eq_isSome]

theorem fsExists_unlink (fs : FS) (k p : String) :
    fsExists (fsUnlink fs k) p = if p = k then false else fsExists fs p := by
  rw [fsExists_eq_isSome, fsRead_unlink]
  by_cases hp : p = k
  · simp [hp]
  · simp [hp, fsExists_eq_isSome]

theorem fsExists_read_some (fs : FS) (p : String) (h : fsExists fs p = true) :
    ∃ c, fsRead fs p = some c := by
  rw [fsExists_eq_isSome] at h
  exact Option.isSome_iff_exists.1 h

theorem processPlaylistsLoop_spec (env : Env) (bm : BlobMapping) :
    ∀ (ds : List String) (fs : FS) (temps : List String) (plMap : List (String × String)),
      (∀ d ∈ ds, ∀ d2 ∈ ds,
        pjoin env.assetsPath (playlistTempRel d2) ≠ pjoin env.assetsPath (playlistOrigRel d)) →
      ∃ fs1,
        processPlaylistsLoop env bm ds fs temps plMap =
          some (temps ++ (selectedDirs env fs ds).map playlistTempRel,
            plMap ++ (selectedDirs env fs ds).map
              (fun d => (playlistTempRel d, playlistOrigRel d)),
            fs1) ∧
        (∀ p, (∀ d ∈ selectedDirs env fs ds, p ≠ pjoin env.assetsPath (playlistTempRel d)) →
          fsRead fs1 p = fsRead fs p) ∧
        (∀ p, fsExists fs p = true → fsExists fs1 p = true) ∧
        (∀ d ∈ selectedDirs env fs ds,
          fsExists fs1 (pjoin env.assetsPath (playlistTempRel d)) = true) := by
  intro ds
  induction ds with
  | nil =>
    intro fs temps plMap _
    exact ⟨fs, by simp [processPlaylistsLoop, selectedDirs],
      fun p _ => rfl, fun p h => h, by simp [selectedDirs]⟩
  | cons d ds ih =>
    intro fs temps plMap hsep
    have hsep' : ∀ x ∈ ds, ∀ x2 ∈ ds,
        pjoin env.assetsPath (playlistTempRel x2) ≠ pjoin env.assetsPath (playlistOrigRel x) :=
      fun x hx x2 hx2 =>
        hsep x (List.mem_cons_of_mem _ hx) x2 (List.mem_cons_of_mem _ hx2)
    by_cases hex : fsExists fs (pjoin env.assetsPath (playlistOrigRel d)) = true
    · obtain ⟨content, hread⟩ := fsExists_read_some fs _ hex
      have hsel : selectedDirs env fs (d :: ds) = d :: selectedDirs env fs ds := by
        simp [selectedDirs, List.filter_cons, hex]
      have hstep : processPlaylistsLoop env bm (d :: ds) fs temps plMap =
          processPlaylistsLoop env bm ds
            (fsWrite fs (pjoin env.assetsPath (playlistTempRel d))
              (updatePlaylistContent content d bm))
            (temps ++ [playlistTempRel d])
            (plMap ++ [(playlistTempRel d, playlistOrigRel d)]) := by
        simp [processPlaylistsLoop, hex, hread]
      have hselinv : selectedDirs env
          (fsWrite fs (pjoin env.assetsPath (playlistTempRel d))
            (updatePlaylistContent content d bm)) ds = selectedDirs env fs ds := by
        apply List.filter_congr
        intro x hx
        have hne : pjoin env.assetsPath (playlistTempRel d) ≠
            pjoin env.assetsPath (playlistOrigRel x) :=
          hsep x (List.mem_cons_of_mem _ hx) d (List.mem_cons_self _ _)
        rw [fsExists_write]
        rw [if_neg (fun habs => hne habs.symm)]
      obtain ⟨fs1, heq, hreadinv, hmono, htemps⟩ :=
        ih (fsWrite fs (pjoin env.assetsPath (playlistTempRel d))
            (updatePlaylistContent content d bm))
          (temps ++ [playlistTempRel d])
          (plMap ++ [(playlistTempRel d, playlistOrigRel d)]) hsep'
      rw [hselinv] at heq hreadinv htemps
      refine ⟨fs1, ?_, ?_, ?_, ?_⟩
      · rw [hstep, heq, hsel]
        simp [List.append_assoc]
      · intro p hp
        rw [hsel] at hp
        have hphead : p ≠ pjoin env.assetsPath (playlistTempRel d) :=
          hp d (List.mem_cons_self _ _)
        rw [hreadinv p (fun x hx => hp x (List.mem_cons_of_mem _ hx)), fsRead_write,
          if_neg hphead]
      · intro p hpex
        apply hmono
        rw [fsExists_write]
        by_cases hpk : p = pjoin env.assetsPath (playlistTempRel d)
        · rw [if_pos hpk]
        · rw [if_neg hpk]
          exact hpex
      · intro x hx
        rw [hsel] at hx
        rcases List.mem_cons.1 hx with rfl | hx'
        · apply hmono
          rw [fsExists_write, if_pos rfl]
        · exact htemps x hx'
    · have hsel : selectedDirs env fs (d :: ds) = selectedDirs env fs ds := by
        simp [selectedDirs, List.filter_cons, hex]
      have hstep : processPlaylistsLoop env bm (d :: ds) fs temps plMap =
          processPlaylistsLoop env bm ds fs temps plMap := by
        simp [processPlaylistsLoop, hex]
      obtain ⟨fs1, heq, hreadinv, hmono, htemps⟩ := ih fs temps plMap hsep'
      refine ⟨fs1, ?_, ?_, hmono, ?_⟩
      · rw [hstep, heq, hsel]
      · rw [hsel]
        exact hreadinv
      · rw [hsel]
        exact htemps

theorem pjoin_left_inj {a b : String} (s : String) (h : pjoin s a = pjoin s b) : a = b := by
  apply strData_inj
  have hd := congrArg String.data h
  simp only [pjoin, strData_append] at hd
  exact List.append_cancel_left hd

theorem pjoin_right_inj {a b : String} (s : String) (h : pjoin a s = pjoin b s) : a = b := by
  apply strData_inj
  have hd := congrArg String.data h
  simp only [pjoin, strData_append] at hd
  exact List.append_cancel_right (List.append_cancel_right hd)

theorem tempRel_injective : Function.Injective playlistTempRel :=
  fun _ _ h => pjoin_right_inj _ h

theorem origRel_injective : Function.Injective playlistOrigRel :=
  fun _ _ h => pjoin_right_inj _ h

theorem tempRel_ne_origRel (d2 d : String) : playlistTempRel d2 ≠ playlistOrigRel d := by
  intro habs
  have h := congrArg (fun s : String => s.data.reverse[13]?) habs
  have hL : (playlistTempRel d2).data.reverse[13]? = some '_' := by
    show (((d2 ++ "/") ++ "temp_playlist.m3u8").data.reverse)[13]? = some '_'
    rw [strData_append, List.reverse_append]
    rw [List.getElem?_append_left (by decide)]
    rfl
  have hR : (playlistOrigRel d).data.reverse[13]? = some '/' := by
    show (((d ++ "/") ++ "playlist.m3u8").data.reverse)[13]? = some '/'
    rw [strData_append, List.reverse_append]
    rw [List.getElem?_append_right (by decide)]
    have hlen : ("playlist.m3u8".data.reverse).length = 13 := by decide
    rw [hlen]
    have h2 : (d ++ "/").data.reverse = '/' :: d.data.reverse := by
      rw [strData_append, List.reverse_append]
      rfl
    rw [h2]
    simp
  simp only [hL, hR] at h
  exact absurd (Option.some.inj h) (by decide)

theorem tempFull_ne_origFull (env : Env) (d2 d : String) :
    pjoin env.assetsPath (playlistTempRel d2) ≠ pjoin env.assetsPath (playlistOrigRel d) :=
  fun habs => tempRel_ne_origRel d2 d (pjoin_left_inj _ habs)

theorem slash_mem_pjoin (a b : String) : '/' ∈ (pjoin a b).data := by
  show '/' ∈ ((a ++ "/") ++ b).data
  rw [strData_append, strData_append]
  exact List.mem_append.2 (Or.inl (List.mem_append.2 (Or.inr (by decide))))

theorem noslash_ne_pjoin {x : String} (a b : String) (hx : ¬ '/' ∈ x.data) :
    x ≠ pjoin a b := by
  intro habs
  exact hx (habs ▸ slash_mem_pjoin a b)

theorem masterFull_ne_tempFull (env : Env) (d : String) :
    masterFull env ≠ pjoin env.assetsPath (playlistTempRel d) :=
  fun habs => noslash_ne_pjoin d "temp_playlist.m3u8" (by decide) (pjoin_left_inj _ habs)

theorem tempMasterFull_ne_tempFull (env : Env) (d : String) :
    tempMasterFull env ≠ pjoin env.assetsPath (playlistTempRel d) :=
  fun habs => noslash_ne_pjoin d "temp_playlist.m3u8" (by decide) (pjoin_left_inj _ habs)

theorem mem_collectSegmentFiles {sds : List String} {fl : String → List String} {p : String}
    (hp : p ∈ collectSegmentFiles sds fl) :
    ∃ d f, d ∈ sds ∧ f ∈ fl d ∧ strEndsWith f ".ts" = true ∧ p = pjoin d f := by
  rw [collectSegmentFiles_eq] at hp
  simp only [List.mem_flatten, List.mem_map, List.mem_filter] at hp
  obtain ⟨l, ⟨d, hd, rfl⟩, hpl⟩ := hp
  simp only [List.mem_map, List.mem_filter] at hpl
  obtain ⟨f, ⟨hf, hts⟩, rfl⟩ := hpl
  exact ⟨d, f, hd, hf, hts, rfl⟩

theorem mem_collectSegment_endsWith {sds : List String} {fl : String → List String} {p : String}
    (hp : p ∈ collectSegmentFiles sds fl) : strEndsWith p ".ts" = true := by
  obtain ⟨d, f, _, _, hts, rfl⟩ := mem_collectSegmentFiles hp
  rw [strEndsWith, List.isSuffixOf_iff_suffix] at hts ⊢
  obtain ⟨pre, hpre⟩ := hts
  refine ⟨(d ++ "/").data ++ pre, ?_⟩
  simp only [pjoin, strData_append]
  rw [List.append_assoc, hpre]

theorem endsWith_last_char {s t : String} (h : strEndsWith s t = true) {c : Char}
    (hc : t.data.getLast? = some c) : s.data.getLast? = some c := by
  rw [strEndsWith, List.isSuffixOf_iff_suffix] at h
  obtain ⟨pre, hpre⟩ := h
  rw [← hpre, List.getLast?_append, hc]
  rfl

theorem playlistOrigRel_last (d : String) : (playlistOrigRel d).data.getLast? = some '8' := by
  show ((d ++ "/") ++ "playlist.m3u8").data.getLast? = some '8'
  rw [strData_append, List.getLast?_append]
  rfl

theorem seg_ne_playlistOrig {p d : String} (hts : strEndsWith p ".ts" = true) :
    p ≠ playlistOrigRel d := by
  intro habs
  have h1 : p.data.getLast? = some 's' := endsWith_last_char hts rfl
  rw [habs, playlistOrigRel_last] at h1
  exact absurd (Option.some.inj h1) (by decide)

theorem segsMap_fresh (env : Env) (ids : String → String) (d : String) :
    ((pipelineSegs env).map (fun p => (p, ids p))).any
      (fun e => e.1 = playlistOrigRel d) = false := by
  rw [Bool.eq_false_iff]
  intro h
  rw [List.any_eq_true] at h
  obtain ⟨e, he, hkey⟩ := h
  rw [List.mem_map] at he
  obtain ⟨p, hp, rfl⟩ := he
  have hkey' : p = playlistOrigRel d := by simpa using hkey
  exact seg_ne_playlistOrig (mem_collectSegment_endsWith hp) hkey'

theorem objLookup_map_pair (sel : List String) (d : String) (hnd : sel.Nodup) (hd : d ∈ sel) :
    objLookup (sel.map (fun x => (playlistTempRel x, playlistOrigRel x))) (playlistTempRel d) =
      some (playlistOrigRel d) := by
  induction sel with
  | nil => cases hd
  | cons x xs ih =>
    rw [List.nodup_cons] at hnd
    rcases List.mem_cons.1 hd with rfl | hd'
    · exact objLookup_cons_hit _ _ _ rfl
    · have hx : ¬ playlistTempRel x = playlistTempRel d := by
        intro habs
        exact hnd.1 (tempRel_injective habs ▸ hd')
      rw [List.map_cons, objLookup_cons_miss _ _ _ hx]
      exact ih hnd.2 hd'

theorem uploadToWalrus_echo (ids : String → String) (ps : List String)
    (hids : ∀ p, ids p ≠ "") (hnd : ps.Nodup) :
    uploadToWalrus (ps.map (fun p => ⟨⟨none, some (ids p)⟩, p⟩)) =
      ps.map (fun p => (p, ids p)) := by
  have hpaths : ((ps.map (fun p => (⟨⟨none, some (ids p)⟩, p⟩ : WalrusCLIResult))).map
      (fun r => r.path)) = ps := by
    rw [List.map_map]
    have hcomp : ((fun r : WalrusCLIResult => r.path) ∘
        fun p => (⟨⟨none, some (ids p)⟩, p⟩ : WalrusCLIResult)) = fun p => p := rfl
    rw [hcomp, List.map_id']
  have hnd2 : ((ps.map (fun p => (⟨⟨none, some (ids p)⟩, p⟩ : WalrusCLIResult))).map
      (fun r => r.path)).Nodup := by
    rw [hpaths]
    exact hnd
  have h := uploadToWalrus_go (ps.map (fun p => ⟨⟨none, some (ids p)⟩, p⟩)) [] (by simp) hnd2
  rw [uploadToWalrus, h, List.nil_append, List.filterMap_map]
  clear hnd hnd2 h hpaths
  induction ps with
  | nil => rfl
  | cons p ps ih =>
    have hk : keptId ⟨⟨none, some (ids p)⟩, p⟩ = some (ids p) := by
      simp [keptId, resolveBlobId, jsOrString, hids p]
    simp only [List.filterMap_cons, List.map_cons, Function.comp_apply, hk, Option.map_some']
    rw [ih]

theorem mergePlaylistUploads_spec (env : Env) (ids : String → String)
    (plMapAll : List (String × String)) :
    ∀ (sel : List String) (bm : BlobMapping) (fs : FS),
      (∀ d ∈ sel, objLookup plMapAll (playlistTempRel d) = some (playlistOrigRel d)) →
      sel.Nodup →
      (∀ d ∈ sel, bm.any (fun e => e.1 = playlistOrigRel d) = false) →
      (∀ d ∈ sel, fsExists fs (pjoin env.assetsPath (playlistTempRel d)) = true) →
      ∃ fs2,
        mergePlaylistUploads env plMapAll
            (sel.map (fun d => (playlistTempRel d, ids (playlistTempRel d)))) bm fs =
          (bm ++ sel.map (fun d => (playlistOrigRel d, ids (playlistTempRel d))), fs2) ∧
        (∀ p, fsRead fs2 p =
          if p ∈ sel.map (fun d => pjoin env.assetsPath (playlistTempRel d)) then none
          else fsRead fs p) := by
  intro sel
  induction sel with
  | nil =>
    intro bm fs _ _ _ _
    exact ⟨fs, by simp [mergePlaylistUploads], fun p => by simp⟩
  | cons d sel ih =>
    intro bm fs hlk hnd hfresh hex
    rw [List.nodup_cons] at hnd
    have hstep : mergePlaylistUploads env plMapAll
        ((d :: sel).map (fun x => (playlistTempRel x, ids (playlistTempRel x)))) bm fs =
        mergePlaylistUploads env plMapAll
          (sel.map (fun x => (playlistTempRel x, ids (playlistTempRel x))))
          (objInsert bm (playlistOrigRel d) (ids (playlistTempRel d)))
          (fsUnlink fs (pjoin env.assetsPath (playlistTempRel d))) := by
      rw [List.map_cons]
      simp only [mergePlaylistUploads, hlk d (List.mem_cons_self _ _),
        hex d (List.mem_cons_self _ _), if_true]
    rw [hstep, objInsert_fresh bm _ _ (hfresh d (List.mem_cons_self _ _))]
    have hfresh' : ∀ x ∈ sel,
        (bm ++ [(playlistOrigRel d, ids (playlistTempRel d))]).any
          (fun e => e.1 = playlistOrigRel x) = false := by
      intro x hx
      rw [List.any_append]
      have h1 := hfresh x (List.mem_cons_of_mem _ hx)
      have h2 : ¬ playlistOrigRel d = playlistOrigRel x := by
        intro habs
        exact hnd.1 (origRel_injective habs ▸ hx)
      simp [h1, h2]
    have hex' : ∀ x ∈ sel,
        fsExists (fsUnlink fs (pjoin env.assetsPath (playlistTempRel d)))
          (pjoin env.assetsPath (playlistTempRel x)) = true := by
      intro x hx
      rw [fsExists_unlink, if_neg]
      · exact hex x (List.mem_cons_of_mem _ hx)
      · intro habs
        exact hnd.1 (tempRel_injective (pjoin_left_inj _ habs) ▸ hx)
    obtain ⟨fs2, heq, hchar⟩ := ih
      (bm ++ [(playlistOrigRel d, ids (playlistTempRel d))])
      (fsUnlink fs (pjoin env.assetsPath (playlistTempRel d)))
      (fun x hx => hlk x (List.mem_cons_of_mem _ hx)) hnd.2 hfresh' hex'
    refine ⟨fs2, ?_, ?_⟩
    · rw [heq]
      simp [List.append_assoc]
    · intro p
      rw [hchar p]
      by_cases hpt : p ∈ sel.map (fun x => pjoin env.assetsPath (playlistTempRel x))
      · rw [if_pos hpt, if_pos]
        rw [List.map_cons]
        exact List.mem_cons_of_mem _ hpt
      · rw [if_neg hpt, fsRead_unlink]
        by_cases hpd : p = pjoin env.assetsPath (playlistTempRel d)
        · rw [if_pos hpd, if_pos]
          rw [List.map_cons, hpd]
          exact List.mem_cons_self _ _
        · rw [if_neg hpd, if_neg]
          intro habs
          rw [List.map_cons] at habs
          rcases List.mem_cons.1 habs with h | h
          · exact hpd h
          · exact hpt h

theorem processAndUploadMasterPlaylist_spec (env : Env) (ids : String → String)
    (bm : BlobMapping) (fs : FS) (mc : List String)
    (hstore : ∀ ps, env.store ps = ps.map (fun p => ⟨⟨none, some (ids p)⟩, p⟩))
    (hids : ∀ p, ids p ≠ "")
    (hread : fsRead fs (masterFull env) = some mc) :
    processAndUploadMasterPlaylist env bm fs =
      some (some (ids (tempMasterFull env)),
        fsUnlink (fsWrite fs (tempMasterFull env) (updateMasterContent mc bm))
          (tempMasterFull env)) := by
  have hup : uploadToWalrus (env.store [tempMasterFull env]) =
      [(tempMasterFull env, ids (tempMasterFull env))] := by
    rw [hstore]
    have := uploadToWalrus_echo ids [tempMasterFull env] hids (by simp)
    simpa using this
  simp only [processAndUploadMasterPlaylist, hread, hup]
  rw [objLookup_cons_hit _ _ _ rfl]

theorem run_spec (env : Env) (fs0 : FS) (ids : String → String)
    (hstore : ∀ ps, env.store ps = ps.map (fun p => ⟨⟨none, some (ids p)⟩, p⟩))
    (hids : ∀ p, ids p ≠ "")
    (hndsd : (pipelineStreamDirs env).Nodup)
    (hndseg : (pipelineSegs env).Nodup)
    (hmaster : fsExists fs0 (masterFull env) = true) :
    ∃ res, uploadHLSAssetsToWalrus env fs0 = some res ∧
      res.blobMappings =
        (pipelineSegs env).map (fun p => (p, ids p)) ++
          (selectedDirs env fs0 (pipelineStreamDirs env)).map
            (fun d => (playlistOrigRel d, ids (playlistTempRel d))) ∧
      res.masterBlobId = some (ids (tempMasterFull env)) ∧
      fsExists res.fs (tempMasterFull env) = false ∧
      (∀ d ∈ selectedDirs env fs0 (pipelineStreamDirs env),
        fsExists res.fs (pjoin env.assetsPath (playlistTempRel d)) = false) ∧
      (∀ p, p ≠ tempMasterFull env →
        (∀ d ∈ selectedDirs env fs0 (pipelineStreamDirs env),
          p ≠ pjoin env.assetsPath (playlistTempRel d)) →
        fsRead res.fs p = fsRead fs0 p) := by
  have hsegbm : uploadToWalrus (env.store (pipelineSegs env)) =
      (pipelineSegs env).map (fun p => (p, ids p)) := by
    rw [hstore]
    exact uploadToWalrus_echo ids _ hids hndseg
  obtain ⟨fsL, hloop, hLread, hLmono, hLtemps⟩ :=
    processPlaylistsLoop_spec env ((pipelineSegs env).map (fun p => (p, ids p)))
      (pipelineStreamDirs env) fs0 [] []
      (fun d _ d2 _ => tempFull_ne_origFull env d2 d)
  rw [List.nil_append, List.nil_append] at hloop
  set sel := selectedDirs env fs0 (pipelineStreamDirs env) with hseldef
  have hselnd : sel.Nodup := hndsd.filter _
  have hupl : uploadToWalrus (env.store (sel.map playlistTempRel)) =
      sel.map (fun d => (playlistTempRel d, ids (playlistTempRel d))) := by
    rw [hstore, uploadToWalrus_echo ids _ hids (hselnd.map tempRel_injective), List.map_map]
    rfl
  obtain ⟨fs2, hpaup, hchar⟩ :
      ∃ fs2, processAndUploadPlaylists env (pipelineStreamDirs env)
          ((pipelineSegs env).map (fun p => (p, ids p))) fs0 =
        some ((pipelineSegs env).map (fun p => (p, ids p)) ++
          sel.map (fun d => (playlistOrigRel d, ids (playlistTempRel d))), fs2) ∧
        (∀ p, fsRead fs2 p =
          if p ∈ sel.map (fun d => pjoin env.assetsPath (playlistTempRel d)) then none
          else fsRead fsL p) := by
    by_cases hselnil : sel = []
    · refine ⟨fsL, ?_, ?_⟩
      · simp only [processAndUploadPlaylists, hloop, hselnil]
        simp
      · intro p
        rw [hselnil]
        simp
    · have hlenpos : (sel.map playlistTempRel).length > 0 := by
        simp [List.length_pos, hselnil]
      obtain ⟨fs2, hmerge, hchar⟩ := mergePlaylistUploads_spec env ids
        (sel.map (fun x => (playlistTempRel x, playlistOrigRel x))) sel
        ((pipelineSegs env).map (fun p => (p, ids p))) fsL
        (fun d hd => objLookup_map_pair sel d hselnd hd) hselnd
        (fun d _ => segsMap_fresh env ids d) hLtemps
      refine ⟨fs2, ?_, hchar⟩
      simp only [processAndUploadPlaylists, hloop]
      rw [if_pos hlenpos, hupl, hmerge]
  obtain ⟨mc, hmc⟩ := fsExists_read_some fs0 _ hmaster
  have hmnotsel : ∀ d ∈ sel, masterFull env ≠ pjoin env.assetsPath (playlistTempRel d) :=
    fun d _ => masterFull_ne_tempFull env d
  have hmnotin : masterFull env ∉ sel.map (fun d => pjoin env.assetsPath (playlistTempRel d)) := by
    intro habs
    rw [List.mem_map] at habs
    obtain ⟨d, hd, hdd⟩ := habs
    exact masterFull_ne_tempFull env d hdd.symm
  have hfs2master : fsRead fs2 (masterFull env) = some mc := by
    rw [hchar (masterFull env), if_neg hmnotin, hLread (masterFull env) hmnotsel, hmc]
  have hmsp := processAndUploadMasterPlaylist_spec env ids
    ((pipelineSegs env).map (fun p => (p, ids p)) ++
      sel.map (fun d => (playlistOrigRel d, ids (playlistTempRel d)))) fs2 mc hstore hids
    hfs2master
  refine ⟨⟨some (ids (tempMasterFull env)),
    (pipelineSegs env).map (fun p => (p, ids p)) ++
      sel.map (fun d => (playlistOrigRel d, ids (playlistTempRel d))),
    fsUnlink
      (fsWrite fs2 (tempMasterFull env)
        (updateMasterContent mc
          ((pipelineSegs env).map (fun p => (p, ids p)) ++
            sel.map (fun d => (playlistOrigRel d, ids (playlistTempRel d))))))
      (tempMasterFull env)⟩, ?_, rfl, rfl, ?_, ?_, ?_⟩
  · show (match processAndUploadPlaylists env (pipelineStreamDirs env)
        (uploadToWalrus (env.store (pipelineSegs env))) fs0 with
      | none => none
      | some (bm1, fs1) =>
        match processAndUploadMasterPlaylist env bm1 fs1 with
        | none => none
        | some (mid, fs3) => some (⟨mid, bm1, fs3⟩ : RunResult)) = _
    rw [hsegbm, hpaup]
    dsimp only
    rw [hmsp]
  · rw [fsExists_unlink, if_pos rfl]
  · intro d hd
    rw [fsExists_unlink,
      if_neg (fun habs => tempMasterFull_ne_tempFull env d habs.symm),
      fsExists_write,
      if_neg (fun habs => tempMasterFull_ne_tempFull env d habs.symm),
      fsExists_eq_isSome, hchar, if_pos (List.mem_map.2 ⟨d, hd, rfl⟩)]
    rfl
  · intro p hp1 hp2
    have hpnotin : p ∉ sel.map (fun d => pjoin env.assetsPath (playlistTempRel d)) := by
      intro habs
      rw [List.mem_map] at habs
      obtain ⟨d, hd, hdd⟩ := habs
      exact hp2 d hd hdd.symm
    rw [fsRead_unlink, if_neg hp1, fsRead_write, if_neg hp1, hchar p, if_neg hpnotin,
      hLread p hp2]

theorem exIds_ne_empty (p : String) : exIds p ≠ "" := by
  intro h
  have h2 := congrArg String.data h
  rw [exIds, strData_append] at h2
  simp at h2

/-- C1 corrected: after a successful run the returned blob mapping holds
exactly one entry per uploaded segment (keyed by its relative path) and one
per uploaded sub-manifest (remapped to the original
`streamDir/playlist.m3u8` path), in that order; the master manifest's blob
identifier is returned separately in `masterBlobId` and is never inserted
into the mapping — no entry is keyed by the master manifest's original
path. -/
theorem c1_amended_final_mapping (env : Env) (fs0 : FS) (ids : String → String)
    (hstore : ∀ ps, env.store ps = ps.map (fun p => ⟨⟨none, some (ids p)⟩, p⟩))
    (hids : ∀ p, ids p ≠ "")
    (hndsd : (pipelineStreamDirs env).Nodup)
    (hndseg : (pipelineSegs env).Nodup)
    (hmaster : fsExists fs0 (masterFull env) = true) :
    ∃ res, uploadHLSAssetsToWalrus env fs0 = some res ∧
      res.blobMappings =
        (pipelineSegs env).map (fun p => (p, ids p)) ++
          (selectedDirs env fs0 (pipelineStreamDirs env)).map
            (fun d => (playlistOrigRel d, ids (playlistTempRel d))) ∧
      res.masterBlobId = some (ids (tempMasterFull env)) ∧
      "master.m3u8" ∉ res.blobMappings.map (fun e => e.1) := by
  obtain ⟨res, hrun, hbm, hmid, -, -, -⟩ := run_spec env fs0 ids hstore hids hndsd hndseg hmaster
  refine ⟨res, hrun, hbm, hmid, ?_⟩
  rw [hbm]
  intro habs
  rw [List.map_append, List.mem_append] at habs
  rcases habs with h | h
  · rw [List.map_map, List.mem_map] at h
    obtain ⟨p, hp, hpe⟩ := h
    have hpe' : p = "master.m3u8" := hpe
    have hp' : p ∈ collectSegmentFiles (pipelineStreamDirs env) env.dirListing := hp
    obtain ⟨d, f, _, _, _, rfl⟩ := mem_collectSegmentFiles hp'
    exact noslash_ne_pjoin d f (by decide) hpe'.symm
  · rw [List.map_map, List.mem_map] at h
    obtain ⟨d, _, hde⟩ := h
    have hde' : playlistOrigRel d = "master.m3u8" := hde
    exact noslash_ne_pjoin d "playlist.m3u8" (by decide) hde'.symm

/-- Witness for C1 on a concrete successful one-rendition run: the final
mapping holds exactly the segment and the sub-manifest under their original
relative paths, and the master blob id is returned separately, keyed
internally by the absolute temporary path. -/
theorem c1_witness :
    ((uploadHLSAssetsToWalrus exEnv exFS).map (fun r => r.blobMappings)) =
      some [("stream_0/data000.ts", "id_stream_0/data000.ts"),
        ("stream_0/playlist.m3u8", "id_stream_0/temp_playlist.m3u8")] ∧
    ((uploadHLSAssetsToWalrus exEnv exFS).map (fun r => r.masterBlobId)) =
      some (some "id_/out/temp_master.m3u8") := by
  obtain ⟨res, hrun, hbm, hmid, -⟩ := c1_amended_final_mapping exEnv exFS exIds
    (fun _ => rfl) exIds_ne_empty (by decide) (by decide) (by decide)
  rw [hrun]
  simp only [Option.map_some']
  rw [hbm, hmid]
  exact ⟨by decide, by decide⟩

/-- C1 counterexample: in a successful full run the master manifest is
uploaded (its blob id is returned), yet the final mapping's keys are only the
segment and sub-manifest paths — no entry is keyed by the master manifest's
original path, contradicting the claim that the mapping contains an entry
for the master manifest. -/
theorem c1_counterexample :
    ((uploadHLSAssetsToWalrus exEnv exFS).map
      (fun r => (r.blobMappings.map (fun e => e.1), r.masterBlobId))) =
      some (["stream_0/data000.ts", "stream_0/playlist.m3u8"],
        some "id_/out/temp_master.m3u8") ∧
    "master.m3u8" ∉ ["stream_0/data000.ts", "stream_0/playlist.m3u8"] := by
  exact ⟨by decide, by decide⟩

/-- C6: after a successful run, neither the temporary master manifest nor any
rendition's temporary playlist remains on disk, and the content of every
other path is exactly what it was before the run — no other file is deleted
or modified. -/
theorem c6_temp_cleanup (env : Env) (fs0 : FS) (ids : String → String)
    (hstore : ∀ ps, env.store ps = ps.map (fun p => ⟨⟨none, some (ids p)⟩, p⟩))
    (hids : ∀ p, ids p ≠ "")
    (hndsd : (pipelineStreamDirs env).Nodup)
    (hndseg : (pipelineSegs env).Nodup)
    (hmaster : fsExists fs0 (masterFull env) = true) :
    ∃ res, uploadHLSAssetsToWalrus env fs0 = some res ∧
      fsExists res.fs (tempMasterFull env) = false ∧
      (∀ d ∈ selectedDirs env fs0 (pipelineStreamDirs env),
        fsExists res.fs (pjoin env.assetsPath (playlistTempRel d)) = false) ∧
      (∀ p, p ≠ tempMasterFull env →
        (∀ d ∈ selectedDirs env fs0 (pipelineStreamDirs env),
          p ≠ pjoin env.assetsPath (playlistTempRel d)) →
        fsRead res.fs p = fsRead fs0 p) := by
  obtain ⟨res, hrun, -, -, h1, h2, h3⟩ := run_spec env fs0 ids hstore hids hndsd hndseg hmaster
  exact ⟨res, hrun, h1, h2, h3⟩

/-- Witness for C6 on the concrete run: both temporary files are gone and the
transcoder's files are untouched. -/
theorem c6_witness :
    ((uploadHLSAssetsToWalrus exEnv exFS).map
      (fun r => (fsExists r.fs "/out/temp_master.m3u8",
        fsExists r.fs "/out/stream_0/temp_playlist.m3u8",
        fsRead r.fs "/out/stream_0/playlist.m3u8",
        fsRead r.fs "/out/master.m3u8"))) =
      some (false, false, some ["#EXTM3U", "data000.ts"],
        some ["#EXTM3U", "stream_0/playlist.m3u8"]) := by
  obtain ⟨res, hrun, h1, h2, h3⟩ := c6_temp_cleanup exEnv exFS exIds
    (fun _ => rfl) exIds_ne_empty (by decide) (by decide) (by decide)
  rw [hrun]
  simp only [Option.map_some']
  have e1 : fsExists res.fs "/out/temp_master.m3u8" = false := h1
  have e2 : fsExists res.fs "/out/stream_0/temp_playlist.m3u8" = false :=
    h2 "stream_0" (by decide)
  have e3 : fsRead res.fs "/out/stream_0/playlist.m3u8" =
      fsRead exFS "/out/stream_0/playlist.m3u8" :=
    h3 "/out/stream_0/playlist.m3u8" (by decide) (by decide)
  have e4 : fsRead res.fs "/out/master.m3u8" = fsRead exFS "/out/master.m3u8" :=
    h3 "/out/master.m3u8" (by decide) (by decide)
  rw [e1, e2, e3, e4]
  rfl

end Greenstream











